import Mathlib

/-!
Verification of the client-side content pipeline of the Jina-AI-scraped
newsfeed application (src/js/reader.js, src/js/api.js, src/js/app.js).

The JavaScript source is embedded shallowly: each function of the `Reader`
and `UI` modules that the claims mention is translated into an executable
Lean definition over `List Char` / `String`.  Regex-chain replacements are
modelled by explicit scanners that reproduce the leftmost, non-greedy,
single-character-retry semantics of the JavaScript regexes used by the
source.  Browser facilities (the `fetch` response object and the DOM
fragment parser behind `innerHTML`) are not part of the repository; they
are modelled by an explicit `HttpOutcome` type and a small HTML
parser/serializer described at their definitions.
-/

/-- Boolean test that `pat` is an initial run of `l`. -/
def startsSeq : List Char → List Char → Bool
  | [], _ => true
  | _ :: _, [] => false
  | p :: ps, c :: cs => p == c && startsSeq ps cs

/-- Boolean substring test on character lists (the model of the JavaScript
`String.prototype.includes`). -/
def hasSeq (pat : List Char) : List Char → Bool
  | [] => startsSeq pat []
  | c :: rest => startsSeq pat (c :: rest) || hasSeq pat rest

/-- `includes` on strings, via `hasSeq`. -/
def strHas (s pat : String) : Bool := hasSeq pat.data s.data

/-- Split a character list at newline characters; models the line structure
that a multiline-anchored JavaScript regex (`^...$` with the `m` flag)
operates on.  Always returns at least one (possibly empty) line. -/
def splitNl : List Char → List (List Char)
  | [] => [[]]
  | c :: rest =>
    if c = '\n' then [] :: splitNl rest
    else
      match splitNl rest with
      | [] => [[c]]
      | l :: ls => (c :: l) :: ls

/-- Rejoin lines with newline characters; inverse of `splitNl`. -/
def joinNl : List (List Char) → List Char
  | [] => []
  | [l] => l
  | l :: ls => l ++ '\n' :: joinNl ls

/-- One line under a header rule: if the line starts with the marker `m`
(for example `### `), wrap the remainder of the line in the opening and
closing tags, as `html.replace(/^### (.*$)/gim, '<h3>$1</h3>')` does. -/
def headerLine (m o c : List Char) (line : List Char) : List Char :=
  if startsSeq m line then o ++ line.drop m.length ++ c else line

/-- A whole header pass: apply `headerLine` to every line. -/
def headerPass (m o c : List Char) (l : List Char) : List Char :=
  joinNl ((splitNl l).map (headerLine m o c))

/-- Scan for the closing `**` of a bold span: the JavaScript pattern
`\*\*(.*?)\*\*` is non-greedy and `.` does not cross a newline, so the
first later `**` on the same line closes the span. -/
def starClose2 : List Char → Option (List Char × List Char)
  | [] => none
  | [_] => none
  | c :: c2 :: rest =>
    if c = '*' ∧ c2 = '*' then some ([], rest)
    else if c = '\n' then none
    else (starClose2 (c2 :: rest)).map (fun p => (c :: p.1, p.2))

/-- Scan for the closing `*` of an italic span (`\*(.*?)\*`). -/
def starClose1 : List Char → Option (List Char × List Char)
  | [] => none
  | c :: rest =>
    if c = '*' then some ([], rest)
    else if c = '\n' then none
    else (starClose1 rest).map (fun p => (c :: p.1, p.2))

/-- Bold pass, `html.replace(/\*\*(.*?)\*\*/gim, '<strong>$1</strong>')`.
On a failed opening the regex engine advances a single character, which the
`none` branch reproduces.  Fuel is the length of the input list. -/
def mdBold : Nat → List Char → List Char
  | 0, l => l
  | _ + 1, [] => []
  | f + 1, c :: rest =>
    if c = '*' ∧ rest.head? = some '*' then
      match starClose2 rest.tail with
      | some (content, r3) =>
        "<strong>".data ++ content ++ "</strong>".data ++ mdBold f r3
      | none => c :: mdBold f rest
    else c :: mdBold f rest

/-- Italic pass, `html.replace(/\*(.*?)\*/gim, '<em>$1</em>')`. -/
def mdItalic : Nat → List Char → List Char
  | 0, l => l
  | _ + 1, [] => []
  | f + 1, c :: rest =>
    if c = '*' then
      match starClose1 rest with
      | some (content, r3) =>
        "<em>".data ++ content ++ "</em>".data ++ mdItalic f r3
      | none => c :: mdItalic f rest
    else c :: mdItalic f rest

/-- Attempt to read `text](url)` after an opening `[`, following
`\[([^\]]+)\]\(([^)]+)\)`: the text runs to the first `]` and must be
non-empty, a `(` must follow, and the url runs to the first `)` and must be
non-empty. -/
def linkRead (l : List Char) : Option (List Char × List Char × List Char) :=
  let txt := l.takeWhile (fun c => c != ']')
  if txt.isEmpty then none
  else
    match l.dropWhile (fun c => c != ']') with
    | ']' :: '(' :: r2 =>
      let url := r2.takeWhile (fun c => c != ')')
      if url.isEmpty then none
      else
        match r2.dropWhile (fun c => c != ')') with
        | ')' :: r3 => some (txt, url, r3)
        | _ => none
    | _ => none

/-- The anchor markup produced for a link match,
`<a href="$2" target="_blank" rel="noopener noreferrer">$1</a>`. -/
def anchorOut (txt url : List Char) : List Char :=
  "<a href=\"".data ++ url ++ "\" target=\"_blank\" rel=\"noopener noreferrer\">".data
    ++ txt ++ "</a>".data

/-- Link pass,
`html.replace(/\[([^\]]+)\]\(([^)]+)\)/gim, '<a href="$2" ...>$1</a>')`. -/
def mdLink : Nat → List Char → List Char
  | 0, l => l
  | _ + 1, [] => []
  | f + 1, c :: rest =>
    if c = '[' then
      match linkRead rest with
      | some (txt, url, r3) => anchorOut txt url ++ mdLink f r3
      | none => c :: mdLink f rest
    else c :: mdLink f rest

/-- Attempt to read `alt](url)` after `![`, following
`!\[([^\]]*)\]\(([^)]+)\)`; the alt text may be empty. -/
def imgRead (l : List Char) : Option (List Char × List Char × List Char) :=
  match l.dropWhile (fun c => c != ']') with
  | ']' :: '(' :: r2 =>
    let url := r2.takeWhile (fun c => c != ')')
    if url.isEmpty then none
    else
      match r2.dropWhile (fun c => c != ')') with
      | ')' :: r3 => some (l.takeWhile (fun c => c != ']'), url, r3)
      | _ => none
  | _ => none

/-- The image markup produced for an image match,
`<img src="$2" alt="$1" loading="lazy">`. -/
def imgOut (alt url : List Char) : List Char :=
  "<img src=\"".data ++ url ++ "\" alt=\"".data ++ alt ++ "\" loading=\"lazy\">".data

/-- Image pass,
`html.replace(/!\[([^\]]*)\]\(([^)]+)\)/gim, '<img src="$2" alt="$1" loading="lazy">')`. -/
def mdImg : Nat → List Char → List Char
  | 0, l => l
  | _ + 1, [] => []
  | f + 1, c :: rest =>
    if c = '!' ∧ rest.head? = some '[' then
      match imgRead rest.tail with
      | some (alt, url, r3) => imgOut alt url ++ mdImg f r3
      | none => c :: mdImg f rest
    else c :: mdImg f rest

/-- Paragraph-break pass, `html.replace(/\n\n/gim, '</p><p>')`: replace
each non-overlapping leftmost pair of newlines. -/
def nlPara : List Char → List Char
  | [] => []
  | [c] => [c]
  | c :: c2 :: rest =>
    if c = '\n' ∧ c2 = '\n' then "</p><p>".data ++ nlPara rest
    else c :: nlPara (c2 :: rest)

/-- Line-break pass, `html.replace(/\n/gim, '<br>')`. -/
def nlBreak : List Char → List Char
  | [] => []
  | c :: rest =>
    if c = '\n' then "<br>".data ++ nlBreak rest
    else c :: nlBreak rest

/-- The bold pass at its call site, fuelled by the input length. -/
def mdBoldP (l : List Char) : List Char := mdBold l.length l

/-- The italic pass at its call site. -/
def mdItalicP (l : List Char) : List Char := mdItalic l.length l

/-- The link pass at its call site. -/
def mdLinkP (l : List Char) : List Char := mdLink l.length l

/-- The image pass at its call site. -/
def mdImgP (l : List Char) : List Char := mdImg l.length l

/-- The full chain of replacements of `Reader.markdownToHtml` on a
non-empty input, in the order the source applies them: `###`, `##`, `#`
headers, bold, italic, links, images, double-newline, single-newline, and
the final paragraph wrap. -/
def mdPasses (l : List Char) : List Char :=
  "<p>".data ++
    nlBreak (nlPara (mdImgP (mdLinkP (mdItalicP (mdBoldP
      (headerPass "# ".data "<h1>".data "</h1>".data
        (headerPass "## ".data "<h2>".data "</h2>".data
          (headerPass "### ".data "<h3>".data "</h3>".data l)))))))) ++
  "</p>".data

/-- The link token the spec's testable property names. -/
def tokLink : List Char := "[x](http://a)".data

/-- The anchor that token should produce. -/
def tokAnchor : List Char := anchorOut "x".data "http://a".data

/-!
## DOM model

`Reader.parseContent` delegates to the browser DOM: it assigns the raw
string to `tempDiv.innerHTML`, removes every `script` and `style` element,
and reads `innerHTML` back.  The browser is not part of this repository, so
the fragment parser and serializer are modelled here: a `Dom` forest of
elements (attribute text kept verbatim) and text nodes, with void elements,
raw-text parsing for `script`/`style` content, decoding of the named
references `&amp;`/`&lt;`/`&gt;` in text, and serialization that re-escapes
`&`, `<`, `>` in text nodes.  Comments, doctypes, foreign content and the
remaining entities are not modelled.
-/

/-- A DOM forest: empty, an element followed by the rest of the forest, or
a text node followed by the rest of the forest. -/
inductive Dom where
  | fnil : Dom
  | fel (name attrs : List Char) (children : Dom) (rest : Dom) : Dom
  | ftxt (s : List Char) (rest : Dom) : Dom
deriving DecidableEq, Repr

/-- Elements with no closing tag and no children. -/
def voidNames : List (List Char) :=
  ["area", "base", "br", "col", "embed", "hr", "img", "input", "link",
   "meta", "param", "source", "track", "wbr"].map String.data

/-- Elements whose content is parsed as raw text (restricted to the two
the stripping code targets). -/
def rawNames : List (List Char) := ["script", "style"].map String.data

/-- ASCII letter test for tag names. -/
def isTagLetter (c : Char) : Bool :=
  ('a' ≤ c && c ≤ 'z') || ('A' ≤ c && c ≤ 'Z')

/-- Scan the attribute region of a tag up to the closing `>`, keeping
quoted sections (which may contain `>`) intact.  Returns the verbatim
attribute text and the input after the `>`; `none` when the input ends
inside the tag, in which case the browser drops the tag. -/
def attrScan : Nat → List Char → Option (List Char × List Char)
  | 0, _ => none
  | _ + 1, [] => none
  | _ + 1, '>' :: r => some ([], r)
  | f + 1, '"' :: r =>
    let q := r.takeWhile (fun c => c != '"')
    match r.dropWhile (fun c => c != '"') with
    | '"' :: r2 => (attrScan f r2).map (fun p => ('"' :: q ++ '"' :: p.1, p.2))
    | _ => none
  | f + 1, '\'' :: r =>
    let q := r.takeWhile (fun c => c != '\'')
    match r.dropWhile (fun c => c != '\'') with
    | '\'' :: r2 => (attrScan f r2).map (fun p => ('\'' :: q ++ '\'' :: p.1, p.2))
    | _ => none
  | f + 1, c :: r => (attrScan f r).map (fun p => (c :: p.1, p.2))

/-- Parse one tag after a `<`: leading `/` marks an end tag, then a
non-empty letter run names the tag (lowercased), then the attribute
region.  A trailing `/` in the attribute region (self-closing syntax) is
dropped, as the HTML parser does for non-foreign elements. -/
def tagScan (l : List Char) : Option (Bool × List Char × List Char × List Char) :=
  let (isEnd, l1) := match l with | '/' :: r => (true, r) | _ => (false, l)
  let name := l1.takeWhile isTagLetter
  if name.isEmpty then none
  else
    let afterName := l1.dropWhile isTagLetter
    match attrScan afterName.length afterName with
    | none => none
    | some (attrs, rest) =>
      let attrs := if attrs.getLast? = some '/' then attrs.dropLast else attrs
      some (isEnd, name.map Char.toLower, attrs, rest)

/-- Decode the named character references `&amp;`, `&lt;`, `&gt;` inside a
text run. -/
def decodeEnt : List Char → List Char
  | [] => []
  | '&' :: 'a' :: 'm' :: 'p' :: ';' :: rest => '&' :: decodeEnt rest
  | '&' :: 'l' :: 't' :: ';' :: rest => '<' :: decodeEnt rest
  | '&' :: 'g' :: 't' :: ';' :: rest => '>' :: decodeEnt rest
  | c :: rest => c :: decodeEnt rest

/-- Split `l` at the first occurrence of `pat`, returning the part before
and the part after the pattern. -/
def splitSeq (pat : List Char) : Nat → List Char → Option (List Char × List Char)
  | 0, _ => none
  | _ + 1, [] => none
  | f + 1, c :: rest =>
    if startsSeq pat (c :: rest) then some ([], (c :: rest).drop pat.length)
    else (splitSeq pat f rest).map (fun p => (c :: p.1, p.2))

/-- A child recorded during tree building, children of elements already in
final order. -/
inductive RNode where
  | relem (name attrs : List Char) (children : Dom) : RNode
  | rtxt (s : List Char) : RNode

/-- Turn a reversed child list into a `Dom` forest. -/
def buildRev : List RNode → Dom → Dom
  | [], acc => acc
  | .relem n a cs :: rest, acc => buildRev rest (.fel n a cs acc)
  | .rtxt s :: rest, acc => buildRev rest (.ftxt s acc)

/-- An open-element frame: tag name, verbatim attributes, children so far
in reverse order.  The bottom frame has an empty name and collects the
top-level forest. -/
abbrev Frame := List Char × List Char × List RNode

/-- Append a finished child to the top frame. -/
def pushChild (n : RNode) : List Frame → List Frame
  | (nm, a, cs) :: st => (nm, a, n :: cs) :: st
  | [] => [([], [], [n])]

/-- Close the top frame, folding it into its parent as an element. -/
def popFrame : List Frame → List Frame
  | (n, a, cs) :: st => pushChild (.relem n a (buildRev cs .fnil)) st
  | [] => []

/-- Whether some open frame (never the bottom sentinel, whose name is
empty) carries this tag name. -/
def hasFrame (name : List Char) (st : List Frame) : Bool :=
  st.any (fun f => f.1 == name)

/-- Close frames up to and including the one named `name`. -/
def closeUpTo (name : List Char) : Nat → List Frame → List Frame
  | 0, st => st
  | f + 1, st =>
    match st with
    | [] => []
    | (n, _, _) :: _ =>
      if n = name then popFrame st else closeUpTo name f (popFrame st)

/-- Close every open frame down to the sentinel and return the collected
forest. -/
def finishFrames : Nat → List Frame → Dom
  | _, [] => .fnil
  | _, [(_, _, cs)] => buildRev cs .fnil
  | 0, (_, _, cs) :: _ => buildRev cs .fnil
  | f + 1, st => finishFrames f (popFrame st)

/-- The fragment tree builder: consumes the input character by character,
maintaining the open-element stack.  Text runs extend to the next `<`; a
`<` that does not begin a well-formed tag is literal text; end tags with no
matching open element are ignored; raw-text elements swallow everything up
to their matching end tag (or the end of input). -/
def buildDom : Nat → List Char → List Frame → Dom
  | 0, _, st => finishFrames st.length st
  | _ + 1, [], st => finishFrames st.length st
  | f + 1, '<' :: rest, st =>
    match tagScan rest with
    | none => buildDom f rest (pushChild (.rtxt ['<']) st)
    | some (true, name, _, rest') =>
      if hasFrame name st then buildDom f rest' (closeUpTo name st.length st)
      else buildDom f rest' st
    | some (false, name, attrs, rest') =>
      if voidNames.contains name then
        buildDom f rest' (pushChild (.relem name attrs .fnil) st)
      else if rawNames.contains name then
        match splitSeq ('<' :: '/' :: name) rest'.length rest' with
        | some (raw, afterClose) =>
          let rest2 := (afterClose.dropWhile (fun c => c != '>')).tail
          buildDom f rest2 (pushChild (.relem name attrs (.ftxt raw .fnil)) st)
        | none => buildDom f [] (pushChild (.relem name attrs (.ftxt rest' .fnil)) st)
      else buildDom f rest' ((name, attrs, []) :: st)
  | f + 1, c :: rest, st =>
    let run := c :: rest.takeWhile (fun ch => ch != '<')
    buildDom f (rest.dropWhile (fun ch => ch != '<')) (pushChild (.rtxt (decodeEnt run)) st)

/-- Parse a character list into a `Dom` forest, as assignment to the
`innerHTML` of a detached `div` does. -/
def parseDom (l : List Char) : Dom :=
  buildDom l.length l [([], [], [])]

/-- Removal of every `script` and `style` element from a forest: the model
of the two `getElementsByTagName`/`removeChild` loops of
`Reader.parseContent`. -/
def stripScriptStyle : Dom → Dom
  | .fnil => .fnil
  | .fel n a cs rest =>
    if rawNames.contains n then stripScriptStyle rest
    else .fel n a (stripScriptStyle cs) (stripScriptStyle rest)
  | .ftxt s rest => .ftxt s (stripScriptStyle rest)

/-- Escape `&`, `<`, `>` in a serialized text node. -/
def escTxt : List Char → List Char
  | [] => []
  | '&' :: rest => "&amp;".data ++ escTxt rest
  | '<' :: rest => "&lt;".data ++ escTxt rest
  | '>' :: rest => "&gt;".data ++ escTxt rest
  | c :: rest => c :: escTxt rest

/-- Serialize a forest back to markup, as reading `innerHTML` does: void
elements have no end tag, raw-text children are emitted verbatim, other
text is escaped. -/
def serializeDom : Dom → List Char
  | .fnil => []
  | .ftxt s rest => escTxt s ++ serializeDom rest
  | .fel n a cs rest =>
    let openTag := '<' :: (n ++ a ++ ['>'])
    if voidNames.contains n then openTag ++ serializeDom rest
    else if rawNames.contains n then
      openTag ++ rawText cs ++ ('<' :: '/' :: n ++ ['>']) ++ serializeDom rest
    else
      openTag ++ serializeDom cs ++ ('<' :: '/' :: n ++ ['>']) ++ serializeDom rest
where
  /-- The raw text content of a raw-text element. -/
  rawText : Dom → List Char
    | .ftxt s rest => s ++ rawText rest
    | .fel _ _ _ rest => rawText rest
    | .fnil => []

/-- The JavaScript `String.prototype.trim`, modelled on the character
list: drop whitespace from both ends (ASCII whitespace; the additional
Unicode space characters JavaScript also trims do not occur in this
code base). -/
def jsTrim (s : String) : String :=
  ⟨((s.data.dropWhile Char.isWhitespace).reverse.dropWhile Char.isWhitespace).reverse⟩

/-- The JavaScript `String.prototype.toLowerCase`, modelled character by
character (ASCII lowering). -/
def jsToLower (s : String) : String :=
  ⟨s.data.map Char.toLower⟩

/-!
## The Reader module (src/js/reader.js)
-/

namespace Reader

/-- The configured content-extraction credential; the checked-in source
leaves it empty (`JINA_API_KEY: ''`). -/
def JINA_API_KEY : String := ""

/-- A JavaScript value sitting in the `content` field of a content-data
object: a string, the missing value (`undefined`/`null`), or any
non-string value. -/
inductive JsContent where
  | str (s : String) : JsContent
  | undef : JsContent
  | nonString : JsContent
deriving DecidableEq

/-- The object `fetchArticleContent` resolves with and `formatContent`
consumes.  `error : Option String` distinguishes an absent field from an
empty string; the unused metadata fields (`title`, `description`,
`author`, `publishedTime`) are omitted because no consumer reads them. -/
structure ContentData where
  success : Bool
  content : JsContent
  error : Option String
deriving DecidableEq

/-- The outcome of the browser `fetch` of the readability service: either
an HTTP response (status, status text, body text) or a network-level
failure whose message the `catch` block receives. -/
inductive HttpOutcome where
  | response (status : Nat) (statusText : String) (body : String) : HttpOutcome
  | networkError (msg : String) : HttpOutcome

/-- `Reader.fetchArticleContent` after the `fetch` resolves: `response.ok`
is a status in 200–299; a non-ok status throws the 401/429/generic
message, an ok response with a blank body throws the empty-response
message, and the surrounding `try`/`catch` converts every throw into a
`success: false` object carrying the message. -/
def fetchArticleContent (o : HttpOutcome) : ContentData :=
  match o with
  | .networkError m => { success := false, content := .undef, error := some m }
  | .response status statusText body =>
    if 200 ≤ status ∧ status ≤ 299 then
      if jsTrim body = "" then
        { success := false, content := .undef,
          error := some "Empty response from Jina AI Reader" }
      else { success := true, content := .str body, error := none }
    else if status = 401 then
      { success := false, content := .undef,
        error := some "Authentication failed. Check your Jina API key or remove it to use free tier." }
    else if status = 429 then
      { success := false, content := .undef,
        error := some "Rate limit exceeded. Try adding a free Jina API key in reader.js" }
    else
      { success := false, content := .undef,
        error := some ("HTTP " ++ toString status ++ ": " ++ statusText) }

/-- The fixed placeholder both normalizer entry points return for a falsy
input. -/
def noContent : String := "<p>No content available</p>"

/-- `Reader.parseContent`: the falsy check, then the DOM round trip that
removes every `script` and `style` element. -/
def parseContent (html : String) : String :=
  if html = "" then noContent
  else ⟨serializeDom (stripScriptStyle (parseDom html.data))⟩

/-- `Reader.parseContent` invoked with a missing argument: `!html` holds
for `undefined` exactly as for the empty string. -/
def parseContentOpt (html : Option String) : String :=
  parseContent (html.getD "")

/-- `Reader.markdownToHtml`: the falsy check, then the regex chain. -/
def markdownToHtml (markdown : String) : String :=
  if markdown = "" then noContent
  else ⟨mdPasses markdown.data⟩

/-- `Reader.markdownToHtml` invoked with a missing argument. -/
def markdownToHtmlOpt (markdown : Option String) : String :=
  markdownToHtml (markdown.getD "")

/-- The JavaScript `a || b` default for a possibly absent, possibly empty
message. -/
def jsOr (a : Option String) (b : String) : String :=
  match a with
  | none => b
  | some "" => b
  | some m => m

/-- The error block `formatContent` renders for a failed fetch, including
the credential hint that is shown exactly when no key is configured. -/
def failBlock (msg : String) : String :=
  "\n                <div class=\"reader-error\">\n                    <h3>Unable to load article content</h3>\n                    <p>"
    ++ msg ++ "</p>\n                    "
    ++ (if JINA_API_KEY = "" then "<p><small>Tip: Add a free Jina API key in reader.js for higher rate limits (200 req/min instead of 20)</small></p>" else "")
    ++ "\n                </div>\n            "

/-- The error block rendered when a successful result carries no usable
string content. -/
def invalidBlock : String :=
  "\n                <div class=\"reader-error\">\n                    <h3>Invalid content format</h3>\n                    <p>The article content could not be parsed. Please try the embedded view.</p>\n                </div>\n            "

/-- `Reader.formatContent`: failure block, content validation, then the
classification rule dispatching to `parseContent` (full documents and
fragments) or `markdownToHtml`. -/
def formatContent (d : ContentData) : String :=
  if d.success = false then
    failBlock (jsOr d.error "Please try the embedded view or open the original article.")
  else
    match d.content with
    | .str s =>
      if s = "" then invalidBlock
      else if strHas s "<html" || strHas s "<!DOCTYPE" then parseContent s
      else if strHas s "<p>" || strHas s "<div>" || strHas s "<article>" then parseContent s
      else markdownToHtml s
    | _ => invalidBlock

/-- `Reader.extractContent`: fetch, then format.  Its `try`/`catch`
wrapper is unreachable in the model because `formatContent` is total and
`fetchArticleContent` already resolves every outcome. -/
def extractContent (o : HttpOutcome) : String :=
  formatContent (fetchArticleContent o)

end Reader

/-!
## The UI module (src/js/api.js)
-/

namespace UI

/-- An article object as received from the headline/search API and held as
the current modal selection. -/
structure ArticleRef where
  url : String
  title : String
  description : Option String
  sourceName : String
  publishedAt : String
  urlToImage : Option String

/-- The slice of presentation state the modal claims touch: the overlay
visibility, the body overflow style, the current article, and the embedded
frame source. -/
structure UIState where
  modalActive : Bool
  bodyOverflow : String
  currentArticle : Option ArticleRef
  articleFrameSrc : String

/-- `UI.closeArticleModal`: deactivate the overlay, restore scrolling,
drop the current article, and blank the embedded frame. -/
def closeArticleModal (s : UIState) : UIState :=
  { s with modalActive := false, bodyOverflow := "",
           currentArticle := none, articleFrameSrc := "about:blank" }

/-- `UI.maxSearchHistory`. -/
def maxSearchHistory : Nat := 5

/-- `UI.addToSearchHistory`: ignore blank terms, drop case-insensitive
duplicates of the trimmed term, push it to the front, and cap the list at
`maxSearchHistory` entries. -/
def addToSearchHistory (history : List String) (term : String) : List String :=
  if jsTrim term = "" then history
  else
    let trimmedTerm := jsTrim term
    let filtered := history.filter (fun t => jsToLower t != jsToLower trimmedTerm)
    let h2 := trimmedTerm :: filtered
    if maxSearchHistory < h2.length then h2.take maxSearchHistory else h2

/-- A sequence of searches applied to an initially empty history. -/
def applySearches (terms : List String) : List String :=
  terms.foldl addToSearchHistory []

/-- The last term of a sequence whose trimmed form is non-blank. -/
def lastNonBlank : List String → Option String
  | [] => none
  | a :: ts =>
    match lastNonBlank ts with
    | some x => some x
    | none => if jsTrim a = "" then none else some a

end UI

namespace Reader

/-- Characterization of the success condition of the fetch, from the
claim: ok status (200–299) and a body that is non-empty after trimming. -/
def fetchOk : HttpOutcome → Bool
  | .response status _ body =>
    decide (200 ≤ status) && decide (status ≤ 299) && (jsTrim body != "")
  | .networkError _ => false

/-- The body text of an HTTP outcome. -/
def bodyOf : HttpOutcome → String
  | .response _ _ b => b
  | .networkError _ => ""

/-- The condition of the invalid-content guard of `formatContent`:
`!contentData.content || typeof contentData.content !== 'string'` holds
exactly for the empty string and every non-string value. -/
def isInvalidContent : JsContent → Bool
  | .str s => s == ""
  | _ => true

end Reader

/-!
## Helper lemmas
-/

/-- `startsSeq` accepts the pattern itself followed by anything. -/
theorem startsSeq_self_append (pat v : List Char) : startsSeq pat (pat ++ v) = true := by
  induction pat with
  | nil => rfl
  | cons p ps ih => simp [startsSeq, ih]

/-- A pattern occurring literally between two pieces is found by
`hasSeq`. -/
theorem hasSeq_of_parts (pat u v : List Char) : hasSeq pat (u ++ pat ++ v) = true := by
  induction u with
  | nil =>
    simp only [List.nil_append]
    cases h : pat ++ v with
    | nil => simp [hasSeq, ← h, startsSeq_self_append]
    | cons c rest =>
      rw [hasSeq, ← h, startsSeq_self_append]
      simp
  | cons c u ih =>
    simp only [List.cons_append]
    rw [hasSeq]
    simp only [List.append_assoc] at ih ⊢
    rw [ih]
    simp

/-- A string beginning with a non-empty piece is not empty. -/
theorem append_ne_empty_of_left (s t : String) (h : s.data ≠ []) : s ++ t ≠ "" := by
  intro he
  have hd := congrArg String.data he
  rw [String.data_append] at hd
  exact h (List.append_eq_nil.mp hd).1

/-!
## Claim C2 — the Content Fetcher resolves every HTTP outcome
-/

/-- Claim C2: `Reader.fetchArticleContent` is total on HTTP outcomes (it
never rejects), its result is the success variant exactly when the status
is in 200-299 and the body is non-blank after trimming, the success
variant carries the response body unchanged, and every failure on an HTTP
response carries a non-empty human-readable reason. -/
theorem fetchArticleContent_resolves (o : Reader.HttpOutcome) :
    ((Reader.fetchArticleContent o).success = Reader.fetchOk o) ∧
    (Reader.fetchOk o = true →
      (Reader.fetchArticleContent o).content = .str (Reader.bodyOf o)) ∧
    (∀ st txt b, o = .response st txt b →
      (Reader.fetchArticleContent o).success = false →
      ∃ m, (Reader.fetchArticleContent o).error = some m ∧ m ≠ "") := by
  cases o with
  | networkError m =>
    refine ⟨rfl, by simp [Reader.fetchOk], ?_⟩
    intro st txt b h
    exact absurd h (by simp)
  | response st txt b =>
    by_cases h1 : 200 ≤ st ∧ st ≤ 299
    · by_cases h2 : jsTrim b = ""
      · refine ⟨?_, ?_, ?_⟩
        · simp [Reader.fetchArticleContent, Reader.fetchOk, h1, h2]
        · simp [Reader.fetchOk, h1, h2]
        · intro st2 txt2 b2 _ _
          exact ⟨"Empty response from Jina AI Reader",
            by simp [Reader.fetchArticleContent, h1, h2], by decide⟩
      · refine ⟨?_, ?_, ?_⟩
        · simp [Reader.fetchArticleContent, Reader.fetchOk, h1, h2]
        · intro _
          simp [Reader.fetchArticleContent, Reader.bodyOf, h1, h2]
        · intro st2 txt2 b2 _ hfail
          rw [show (Reader.fetchArticleContent (.response st txt b)).success = true by
            simp [Reader.fetchArticleContent, h1, h2]] at hfail
          exact absurd hfail (by simp)
    · by_cases h3 : st = 401
      · subst h3
        refine ⟨?_, ?_, ?_⟩
        · simp [Reader.fetchArticleContent, Reader.fetchOk, h1]
        · simp [Reader.fetchOk]
        · intro st2 txt2 b2 _ _
          exact ⟨"Authentication failed. Check your Jina API key or remove it to use free tier.",
            by simp [Reader.fetchArticleContent, h1], by decide⟩
      · by_cases h4 : st = 429
        · subst h4
          refine ⟨?_, ?_, ?_⟩
          · simp [Reader.fetchArticleContent, Reader.fetchOk, h1]
          · simp [Reader.fetchOk]
          · intro st2 txt2 b2 _ _
            exact ⟨"Rate limit exceeded. Try adding a free Jina API key in reader.js",
              by simp [Reader.fetchArticleContent, h1, h3], by decide⟩
        · refine ⟨?_, ?_, ?_⟩
          · have hok : Reader.fetchOk (.response st txt b) = false := by
              simp [Reader.fetchOk]
              omega
            simp [Reader.fetchArticleContent, hok, h1, h3, h4]
          · intro hc
            simp [Reader.fetchOk] at hc
            omega
          · intro st2 txt2 b2 _ _
            refine ⟨"HTTP " ++ toString st ++ ": " ++ txt,
              by simp [Reader.fetchArticleContent, h1, h3, h4], ?_⟩
            apply append_ne_empty_of_left
            rw [String.data_append]
            simp

/-- Witness for C2 at a concrete outcome: a 200 response with body
`"ok"`. -/
theorem fetchArticleContent_resolves_witness :
    ((Reader.fetchArticleContent (.response 200 "OK" "ok")).success
       = Reader.fetchOk (.response 200 "OK" "ok")) ∧
    (Reader.fetchArticleContent (.response 200 "OK" "ok")).content = .str "ok" :=
  ⟨(fetchArticleContent_resolves (.response 200 "OK" "ok")).1,
   (fetchArticleContent_resolves (.response 200 "OK" "ok")).2.1 (by decide)⟩

/-!
## Claim C9 — closing the modal blanks the frame and clears the article
-/

/-- Claim C9: from every prior state, `UI.closeArticleModal` sets the
embedded frame source to `about:blank` and clears the current article. -/
theorem closeArticleModal_resets (s : UI.UIState) :
    (UI.closeArticleModal s).articleFrameSrc = "about:blank" ∧
    (UI.closeArticleModal s).currentArticle = none :=
  ⟨rfl, rfl⟩

/-!
## Claim C10 — invalid content yields the invalid-format block
-/

/-- Claim C10: when a successful result carries no usable string content
(missing, empty, or not a string), `Reader.formatContent` returns the
fixed non-empty invalid-content block, which names the problem and
suggests the embedded view, without attempting classification. -/
theorem formatContent_invalid_content (d : Reader.ContentData)
    (hs : d.success = true) (hc : Reader.isInvalidContent d.content = true) :
    Reader.formatContent d = Reader.invalidBlock ∧
    hasSeq "Invalid content format".data (Reader.formatContent d).data = true ∧
    hasSeq "Please try the embedded view".data (Reader.formatContent d).data = true ∧
    Reader.formatContent d ≠ "" := by
  have hfc : Reader.formatContent d = Reader.invalidBlock := by
    cases d with
    | mk succ content err =>
      cases content with
      | str s =>
        simp [Reader.isInvalidContent] at hc
        simp_all [Reader.formatContent]
      | undef => simp_all [Reader.formatContent]
      | nonString => simp_all [Reader.formatContent]
  refine ⟨hfc, ?_, ?_, ?_⟩ <;> rw [hfc] <;> decide

/-- Witness for C10: a success object whose content field is missing. -/
theorem formatContent_invalid_content_witness :
    Reader.formatContent ⟨true, .undef, none⟩ = Reader.invalidBlock ∧
    hasSeq "Invalid content format".data
      (Reader.formatContent ⟨true, .undef, none⟩).data = true ∧
    hasSeq "Please try the embedded view".data
      (Reader.formatContent ⟨true, .undef, none⟩).data = true ∧
    Reader.formatContent ⟨true, .undef, none⟩ ≠ "" :=
  formatContent_invalid_content ⟨true, .undef, none⟩ rfl rfl

/-!
## Claim C1 — a script-bearing input that classifies as markdown keeps its
script tag
-/

/-- Claim C1 failing input: `<script>alert(1)</script>` contains none of
the HTML markers, so `Reader.formatContent` sends it through
`markdownToHtml`, which performs no sanitization: the output still
contains `<script>`. -/
theorem formatContent_keeps_script :
    Reader.formatContent ⟨true, .str "<script>alert(1)</script>", none⟩
      = "<p><script>alert(1)</script></p>" ∧
    hasSeq "<script>".data
      (Reader.formatContent ⟨true, .str "<script>alert(1)</script>", none⟩).data = true := by
  decide

/-!
## Claim C5 — the earlier link rule consumes image tokens
-/

/-- Claim C5 failing input: in `![a](http://u)` the link replacement runs
before the image replacement and consumes `[a](http://u)`, so the output
is a `!` followed by an anchor and contains no `<img` element. -/
theorem markdownToHtml_image_token_eaten :
    Reader.markdownToHtml "![a](http://u)"
      = "<p>!<a href=\"http://u\" target=\"_blank\" rel=\"noopener noreferrer\">a</a></p>" ∧
    hasSeq "<img".data (Reader.markdownToHtml "![a](http://u)").data = false := by
  decide

/-!
## Claim C4 — blank versus empty input to the normalizer
-/

set_option maxRecDepth 10000 in
/-- Claim C4 counterexample: a whitespace-only input is truthy in
JavaScript, so neither normalizer entry point replaces it with the
placeholder: `parseContent` returns it unchanged and `markdownToHtml`
wraps it in a paragraph. -/
theorem whitespace_input_not_placeholder :
    Reader.parseContent " " = " " ∧ Reader.markdownToHtml " " = "<p> </p>" ∧
    Reader.parseContent " " ≠ Reader.noContent ∧
    Reader.markdownToHtml " " ≠ Reader.noContent := by
  decide

/-- Claim C4 amended: empty or missing input yields the fixed non-empty
placeholder in both normalizer entry points. -/
theorem empty_input_placeholder :
    Reader.parseContent "" = Reader.noContent ∧
    Reader.markdownToHtml "" = Reader.noContent ∧
    Reader.parseContentOpt none = Reader.noContent ∧
    Reader.markdownToHtmlOpt none = Reader.noContent ∧
    Reader.noContent ≠ "" := by
  decide

/-!
## Claim C7 — idempotence of the sanitization
-/

set_option maxRecDepth 40000 in
/-- Claim C7 counterexample: an input consisting of a single script
element strips to the empty string, and a second application of
`parseContent` turns that into the placeholder, so `parseContent` is not
idempotent as a string function. -/
theorem parseContent_not_idempotent :
    Reader.parseContent (Reader.parseContent "<script>a</script>")
      ≠ Reader.parseContent "<script>a</script>" ∧
    Reader.parseContent "<script>a</script>" = "" ∧
    Reader.parseContent "" = Reader.noContent := by
  decide

/-- Claim C7 amended: the script/style-strip itself is idempotent at the
DOM level — stripping an already stripped forest changes nothing. -/
theorem stripScriptStyle_idem (d : Dom) :
    stripScriptStyle (stripScriptStyle d) = stripScriptStyle d := by
  induction d with
  | fnil => rfl
  | fel n a cs rest ihc ihr =>
    by_cases h : n ∈ rawNames
    · simp [stripScriptStyle, h, ihr]
    · simp [stripScriptStyle, h, ihc, ihr]
  | ftxt s rest ih => simp [stripScriptStyle, ih]

/-!
## Claim C3 — rendering of a 401 extraction failure
-/

set_option maxRecDepth 40000 in
/-- Claim C3 counterexample: the output rendered for an HTTP 401 names
the authentication failure but contains no occurrence of `embed`, so it
does not suggest the embedded view (that suggestion is the default text
shown only when the failure carries no reason). -/
theorem extract_401_no_embed_hint :
    hasSeq "Authentication".data
      (Reader.extractContent (.response 401 "Unauthorized" "")).data = true ∧
    hasSeq "embed".data
      (Reader.extractContent (.response 401 "Unauthorized" "")).data = false ∧
    hasSeq "Embed".data
      (Reader.extractContent (.response 401 "Unauthorized" "")).data = false := by
  decide

set_option maxRecDepth 40000 in
/-- Claim C3 amended: for every HTTP 401 outcome, whatever the status
text and body, the rendered output is the fixed authentication error
block and contains the word `Authentication`. -/
theorem extract_401_names_authentication (txt body : String) :
    Reader.extractContent (.response 401 txt body)
      = Reader.extractContent (.response 401 "" "") ∧
    hasSeq "Authentication".data
      (Reader.extractContent (.response 401 txt body)).data = true :=
  ⟨rfl, of_decide_eq_true rfl⟩

/-!
## Claim C8 — the search-history invariant
-/

/-- A blank term leaves the history unchanged. -/
theorem addToSearchHistory_blank (h : List String) (t : String) (hb : jsTrim t = "") :
    UI.addToSearchHistory h t = h := by
  simp [UI.addToSearchHistory, hb]

/-- One addition preserves the cap and case-insensitive distinctness. -/
theorem addToSearchHistory_inv (h : List String) (t : String)
    (hl : h.length ≤ UI.maxSearchHistory)
    (hp : h.Pairwise (fun a b => jsToLower a ≠ jsToLower b)) :
    (UI.addToSearchHistory h t).length ≤ UI.maxSearchHistory ∧
    (UI.addToSearchHistory h t).Pairwise (fun a b => jsToLower a ≠ jsToLower b) := by
  unfold UI.addToSearchHistory
  by_cases hb : jsTrim t = ""
  · simp only [hb, if_pos rfl]
    exact ⟨hl, hp⟩
  · simp only [hb, if_neg, ite_false]
    have hfp : (h.filter (fun x => jsToLower x != jsToLower (jsTrim t))).Pairwise
        (fun a b => jsToLower a ≠ jsToLower b) := hp.filter _
    have hcons : (jsTrim t :: h.filter (fun x => jsToLower x != jsToLower (jsTrim t))).Pairwise
        (fun a b => jsToLower a ≠ jsToLower b) := by
      refine List.Pairwise.cons ?_ hfp
      intro b hbmem
      have hpred := List.of_mem_filter hbmem
      simp only [bne_iff_ne, ne_eq] at hpred
      exact fun hEq => hpred hEq.symm
    by_cases hlen : UI.maxSearchHistory <
        (jsTrim t :: h.filter (fun x => jsToLower x != jsToLower (jsTrim t))).length
    · simp only [hlen, if_pos, ite_true]
      constructor
      · rw [List.length_take]
        exact min_le_left _ _
      · exact hcons.sublist (List.take_sublist _ _)
    · simp only [hlen, ite_false]
      exact ⟨Nat.le_of_not_lt hlen, hcons⟩

/-- After adding a non-blank term, the trimmed term sits at the front. -/
theorem addToSearchHistory_head (h : List String) (t : String) (hb : jsTrim t ≠ "") :
    (UI.addToSearchHistory h t).head? = some (jsTrim t) := by
  unfold UI.addToSearchHistory
  simp only [hb, ite_false]
  by_cases hlen : UI.maxSearchHistory <
      (jsTrim t :: h.filter (fun x => jsToLower x != jsToLower (jsTrim t))).length
  · simp only [hlen, ite_true]
    rw [show UI.maxSearchHistory = 4 + 1 from rfl, List.take_succ_cons]
    rfl
  · simp only [hlen, ite_false]
    rfl

/-- The fold over any term sequence preserves the invariant. -/
theorem applySearches_inv_aux (ts : List String) :
    ∀ h, h.length ≤ UI.maxSearchHistory →
      h.Pairwise (fun a b => jsToLower a ≠ jsToLower b) →
      (ts.foldl UI.addToSearchHistory h).length ≤ UI.maxSearchHistory ∧
      (ts.foldl UI.addToSearchHistory h).Pairwise (fun a b => jsToLower a ≠ jsToLower b) := by
  induction ts with
  | nil => exact fun h hl hp => ⟨hl, hp⟩
  | cons a ts ih =>
    intro h hl hp
    rw [List.foldl_cons]
    have step := addToSearchHistory_inv h a hl hp
    exact ih _ step.1 step.2

/-- The fold puts the last non-blank term of the sequence, trimmed, at
the front; a sequence of blanks changes nothing. -/
theorem applySearches_head_aux (ts : List String) :
    ∀ h, (∀ t, UI.lastNonBlank ts = some t →
        (ts.foldl UI.addToSearchHistory h).head? = some (jsTrim t)) ∧
      (UI.lastNonBlank ts = none → ts.foldl UI.addToSearchHistory h = h) := by
  induction ts with
  | nil =>
    intro h
    exact ⟨fun t ht => by simp [UI.lastNonBlank] at ht, fun _ => rfl⟩
  | cons a ts ih =>
    intro h
    constructor
    · intro t hlast
      rw [List.foldl_cons]
      cases hcase : UI.lastNonBlank ts with
      | some x =>
        have hx : x = t := by
          simp [UI.lastNonBlank, hcase] at hlast
          exact hlast
        exact hx ▸ (ih (UI.addToSearchHistory h a)).1 x hcase
      | none =>
        by_cases hb : jsTrim a = ""
        · simp [UI.lastNonBlank, hcase, hb] at hlast
        · have ha : a = t := by
            simp [UI.lastNonBlank, hcase, hb] at hlast
            exact hlast
          rw [(ih (UI.addToSearchHistory h a)).2 hcase, ← ha]
          exact addToSearchHistory_head h a hb
    · intro hnone
      cases hcase : UI.lastNonBlank ts with
      | some x => simp [UI.lastNonBlank, hcase] at hnone
      | none =>
        by_cases hb : jsTrim a = ""
        · rw [List.foldl_cons, addToSearchHistory_blank h a hb,
            (ih h).2 hcase]
        · simp [UI.lastNonBlank, hcase, hb] at hnone

/-- Claim C8: after any sequence of additions starting from the empty
history, the list has at most five entries, its entries are pairwise
distinct case-insensitively, and the most recently added non-blank term
sits trimmed at the front; in particular adding `AI` then `ai` yields the
single entry `ai`. -/
theorem searchHistory_invariant :
    (∀ terms : List String,
      (UI.applySearches terms).length ≤ UI.maxSearchHistory ∧
      (UI.applySearches terms).Pairwise (fun a b => jsToLower a ≠ jsToLower b) ∧
      (∀ t, UI.lastNonBlank terms = some t →
        (UI.applySearches terms).head? = some (jsTrim t))) ∧
    UI.applySearches ["AI", "ai"] = ["ai"] := by
  refine ⟨fun terms => ?_, by decide⟩
  have hinv := applySearches_inv_aux terms [] (by decide) (by decide)
  exact ⟨hinv.1, hinv.2, fun t ht => (applySearches_head_aux terms []).1 t ht⟩

/-- Witness for C8 at the concrete sequence `AI`, `ai`. -/
theorem searchHistory_invariant_witness :
    (UI.applySearches ["AI", "ai"]).head? = some (jsTrim "ai") ∧
    (UI.applySearches ["AI", "ai"]).length ≤ UI.maxSearchHistory ∧
    UI.applySearches ["AI", "ai"] = ["ai"] :=
  ⟨(searchHistory_invariant.1 ["AI", "ai"]).2.2 "ai" (by decide),
   (searchHistory_invariant.1 ["AI", "ai"]).1,
   searchHistory_invariant.2⟩

/-!
## Claim C6 — link tokens and the surrounding context
-/

/-- Claim C6 counterexample: the input `[a](b[x](http://a)` contains the
link token `[x](http://a)` not preceded by `!`, yet the output contains no
anchor with `href="http://a"`: the link pattern matches from the earlier
`[`, swallowing the token into `<a href="b[x](http://a" ...>a</a>`. -/
theorem link_token_consumed :
    hasSeq "[x](http://a)".data "[a](b[x](http://a)".data = true ∧
    hasSeq "![x]".data "[a](b[x](http://a)".data = false ∧
    hasSeq "href=\"http://a\"".data
      (Reader.markdownToHtml "[a](b[x](http://a)").data = false := by
  decide

/-- `splitNl` always produces at least one line. -/
theorem splitNl_ne_nil (l : List Char) : splitNl l ≠ [] := by
  cases l with
  | nil => simp [splitNl]
  | cons c rest =>
    rw [splitNl]
    by_cases h : c = '\n'
    · simp [h]
    · simp only [h, ite_false]
      cases splitNl rest <;> simp

theorem splitNl_append_no_nl (u v : List Char) (hu : '\n' ∉ u) :
    ∃ h t, splitNl v = h :: t ∧ splitNl (u ++ v) = (u ++ h) :: t := by
  induction u with
  | nil =>
    cases hv : splitNl v with
    | nil => exact absurd hv (splitNl_ne_nil v)
    | cons h t => exact ⟨h, t, rfl, by simp [hv]⟩
  | cons c u ih =>
    have hc : c ≠ '\n' := fun h => hu (h ▸ List.mem_cons_self c u)
    obtain ⟨h, t, hv, hind⟩ := ih (fun hm => hu (List.mem_cons_of_mem c hm))
    refine ⟨h, t, hv, ?_⟩
    rw [List.cons_append, splitNl]
    simp only [hc, ite_false, hind]
    simp

theorem splitNl_append_nl (u v : List Char) (hu : '\n' ∉ u) :
    splitNl (u ++ '\n' :: v) = u :: splitNl v := by
  induction u with
  | nil => simp [splitNl]
  | cons c u ih =>
    have hc : c ≠ '\n' := fun h => hu (h ▸ List.mem_cons_self c u)
    rw [List.cons_append, splitNl]
    simp only [hc, ite_false, ih (fun hm => hu (List.mem_cons_of_mem c hm))]

theorem exists_nl_split (p : List Char) (hp : '\n' ∈ p) :
    ∃ u p2, p = u ++ '\n' :: p2 ∧ '\n' ∉ u := by
  induction p with
  | nil => cases hp
  | cons c p ih =>
    by_cases hc : c = '\n'
    · exact ⟨[], p, by rw [hc]; rfl, by simp⟩
    · obtain ⟨u, p2, heq, hnu⟩ := ih (by
        cases List.mem_cons.mp hp with
        | inl h => exact absurd h.symm hc
        | inr h => exact h)
      exact ⟨c :: u, p2, by rw [heq]; rfl, by
        intro hm
        cases List.mem_cons.mp hm with
        | inl h => exact hc h.symm
        | inr h => exact hnu h⟩

theorem joinNl_cons_of_ne_nil (x : List Char) (xs : List (List Char)) (h : xs ≠ []) :
    joinNl (x :: xs) = x ++ '\n' :: joinNl xs := by
  cases xs with
  | nil => exact absurd rfl h
  | cons y ys => rfl

/-- A marker without `[` that starts a line reaching a `[` fits inside
the part before the `[`. -/
theorem startsSeq_le_of_no_bracket (m : List Char) (hm : '[' ∉ m) :
    ∀ a b : List Char, startsSeq m (a ++ '[' :: b) = true → m.length ≤ a.length := by
  induction m with
  | nil => intro a b _; simp
  | cons mc m ih =>
    intro a b hss
    have hmc : mc ≠ '[' := fun h => hm (h ▸ List.mem_cons_self mc m)
    cases a with
    | nil =>
      rw [List.nil_append, startsSeq] at hss
      simp only [Bool.and_eq_true, beq_iff_eq] at hss
      exact absurd hss.1 hmc
    | cons ac a =>
      rw [List.cons_append, startsSeq] at hss
      simp only [Bool.and_eq_true, beq_iff_eq] at hss
      have := ih (fun hmem => hm (List.mem_cons_of_mem mc hmem)) a b hss.2
      simpa using Nat.succ_le_succ this

/-- `headerLine` preserves freedom from `[`. -/
theorem headerLine_noBracket (m o c line : List Char)
    (ho : '[' ∉ o) (hc : '[' ∉ c) (hl : '[' ∉ line) :
    '[' ∉ headerLine m o c line := by
  unfold headerLine
  by_cases hss : startsSeq m line = true
  · simp only [hss, ite_true]
    intro hmem
    rcases List.mem_append.mp hmem with h | h
    · rcases List.mem_append.mp h with h | h
      · exact ho h
      · exact hl (List.drop_subset _ _ h)
    · exact hc h
  · simp only [hss, ite_false]
    exact hl

theorem startsSeq_le_tok (m p h2 : List Char) (hm : '[' ∉ m)
    (hss : startsSeq m (p ++ tokLink ++ h2) = true) : m.length ≤ p.length := by
  rw [List.append_assoc] at hss
  exact startsSeq_le_of_no_bracket m hm p ("x](http://a)".data ++ h2) hss

theorem headerPass_token_no_nl (m o c : List Char) (hm : '[' ∉ m)
    (ho : '[' ∉ o) (hc : '[' ∉ c)
    (p s : List Char) (hp : '\n' ∉ p) (h1 : '[' ∉ p) :
    ∃ p2 s2, headerPass m o c (p ++ tokLink ++ s) = p2 ++ tokLink ++ s2 ∧
      '[' ∉ p2 := by
  have htokn : '\n' ∉ tokLink := by decide
  have hun : '\n' ∉ p ++ tokLink := by
    intro hmem
    rcases List.mem_append.mp hmem with h | h
    · exact hp h
    · exact htokn h
  obtain ⟨hd, t, hv, hsp⟩ := splitNl_append_no_nl (p ++ tokLink) s hun
  unfold headerPass
  rw [hsp, List.map_cons]
  by_cases hss : startsSeq m (p ++ tokLink ++ hd) = true
  · have hk := startsSeq_le_tok m p hd hm hss
    have hdrop : (p ++ tokLink ++ hd).drop m.length
        = p.drop m.length ++ tokLink ++ hd := by
      rw [List.append_assoc, List.drop_append_of_le_length hk, ← List.append_assoc]
    have hhl : headerLine m o c (p ++ tokLink ++ hd)
        = (o ++ p.drop m.length) ++ tokLink ++ (hd ++ c) := by
      unfold headerLine
      rw [if_pos hss, hdrop]
      simp [List.append_assoc]
    have hinv : '[' ∉ o ++ p.drop m.length := by
      intro hmem
      rcases List.mem_append.mp hmem with h | h
      · exact ho h
      · exact h1 (List.drop_subset _ _ h)
    cases t with
    | nil =>
      refine ⟨o ++ p.drop m.length, hd ++ c, ?_, hinv⟩
      rw [List.map_nil]
      show headerLine m o c (p ++ tokLink ++ hd) = _
      rw [hhl]
    | cons y ys =>
      refine ⟨o ++ p.drop m.length,
        (hd ++ c) ++ '\n' :: joinNl (List.map (headerLine m o c) (y :: ys)), ?_, hinv⟩
      rw [joinNl_cons_of_ne_nil _ _ (by simp), hhl]
      simp [List.append_assoc]
  · have hhl : headerLine m o c (p ++ tokLink ++ hd) = p ++ tokLink ++ hd := by
      unfold headerLine
      rw [if_neg hss]
    cases t with
    | nil =>
      refine ⟨p, hd, ?_, h1⟩
      rw [List.map_nil]
      show headerLine m o c (p ++ tokLink ++ hd) = _
      rw [hhl]
    | cons y ys =>
      refine ⟨p, hd ++ '\n' :: joinNl (List.map (headerLine m o c) (y :: ys)), ?_, h1⟩
      rw [joinNl_cons_of_ne_nil _ _ (by simp), hhl]
      simp [List.append_assoc]

theorem headerPass_token (m o c : List Char) (hm : '[' ∉ m)
    (ho : '[' ∉ o) (hc : '[' ∉ c) :
    ∀ n p s, p.length ≤ n → '[' ∉ p →
    ∃ p2 s2, headerPass m o c (p ++ tokLink ++ s) = p2 ++ tokLink ++ s2 ∧
      '[' ∉ p2 := by
  intro n
  induction n with
  | zero =>
    intro p s hlen h1
    have hp : p = [] := List.eq_nil_of_length_eq_zero (Nat.le_zero.mp hlen)
    subst hp
    exact headerPass_token_no_nl m o c hm ho hc [] s (by simp) h1
  | succ n ih =>
    intro p s hlen h1
    by_cases hnl : '\n' ∈ p
    · obtain ⟨u, p2, heq, hnu⟩ := exists_nl_split p hnl
      subst heq
      have hu1 : '[' ∉ u := fun h => h1 (List.mem_append.mpr (Or.inl h))
      have hp21 : '[' ∉ p2 := fun h =>
        h1 (List.mem_append.mpr (Or.inr (List.mem_cons_of_mem _ h)))
      have hlen2 : p2.length ≤ n := by
        rw [List.length_append, List.length_cons] at hlen
        omega
      obtain ⟨q, s2, hih, hq1⟩ := ih p2 s hlen2 hp21
      have hre : (u ++ '\n' :: p2) ++ tokLink ++ s
          = u ++ '\n' :: (p2 ++ tokLink ++ s) := by
        simp [List.append_assoc]
      rw [hre]
      unfold headerPass
      rw [splitNl_append_nl u _ hnu, List.map_cons,
          joinNl_cons_of_ne_nil _ _ (by
            simp [List.map_eq_nil_iff, splitNl_ne_nil])]
      refine ⟨headerLine m o c u ++ '\n' :: q, s2, ?_, ?_⟩
      · rw [show joinNl (List.map (headerLine m o c) (splitNl (p2 ++ tokLink ++ s)))
            = q ++ tokLink ++ s2 from hih]
        simp [List.append_assoc]
      · intro hmem
        rcases List.mem_append.mp hmem with h | h
        · exact headerLine_noBracket m o c u ho hc hu1 h
        · rcases List.mem_cons.mp h with h | h
          · exact absurd h (by decide)
          · exact hq1 h
    · exact headerPass_token_no_nl m o c hm ho hc p s hnl h1

theorem mdBold_front (u : List Char) (hu : '*' ∉ u) :
    ∀ f v, u.length ≤ f → mdBold f (u ++ v) = u ++ mdBold (f - u.length) v := by
  induction u with
  | nil => intro f v _; simp
  | cons ch u ih =>
    intro f v hlen
    have hch : ch ≠ '*' := fun h => hu (h ▸ List.mem_cons_self ch u)
    cases f with
    | zero => simp at hlen
    | succ f =>
      rw [List.cons_append, mdBold, if_neg (fun hand => hch hand.1),
          ih (fun h => hu (List.mem_cons_of_mem ch h)) f v (Nat.le_of_succ_le_succ hlen)]
      simp [Nat.succ_sub_succ]

theorem mdItalic_front (u : List Char) (hu : '*' ∉ u) :
    ∀ f v, u.length ≤ f → mdItalic f (u ++ v) = u ++ mdItalic (f - u.length) v := by
  induction u with
  | nil => intro f v _; simp
  | cons ch u ih =>
    intro f v hlen
    have hch : ch ≠ '*' := fun h => hu (h ▸ List.mem_cons_self ch u)
    cases f with
    | zero => simp at hlen
    | succ f =>
      rw [List.cons_append, mdItalic, if_neg hch,
          ih (fun h => hu (List.mem_cons_of_mem ch h)) f v (Nat.le_of_succ_le_succ hlen)]
      simp [Nat.succ_sub_succ]

theorem mdLink_front (u : List Char) (hu : '[' ∉ u) :
    ∀ f v, u.length ≤ f → mdLink f (u ++ v) = u ++ mdLink (f - u.length) v := by
  induction u with
  | nil => intro f v _; simp
  | cons ch u ih =>
    intro f v hlen
    have hch : ch ≠ '[' := fun h => hu (h ▸ List.mem_cons_self ch u)
    cases f with
    | zero => simp at hlen
    | succ f =>
      rw [List.cons_append, mdLink, if_neg hch,
          ih (fun h => hu (List.mem_cons_of_mem ch h)) f v (Nat.le_of_succ_le_succ hlen)]
      simp [Nat.succ_sub_succ]

theorem mdImg_front (u : List Char) (hu : '[' ∉ u) (hl : u.getLast? ≠ some '!') :
    ∀ f v, u.length ≤ f → mdImg f (u ++ v) = u ++ mdImg (f - u.length) v := by
  induction u with
  | nil => intro f v _; simp
  | cons ch u ih =>
    intro f v hlen
    cases f with
    | zero => simp at hlen
    | succ f =>
      have hcond : ¬(ch = '!' ∧ (u ++ v).head? = some '[') := by
        rintro ⟨hbang, hhead⟩
        cases u with
        | nil =>
          rw [List.getLast?_singleton] at hl
          exact hl (by rw [hbang])
        | cons c2 u2 =>
          have hc2 : c2 ≠ '[' := fun h =>
            hu (List.mem_cons_of_mem ch (h ▸ List.mem_cons_self c2 u2))
          rw [List.cons_append, List.head?_cons] at hhead
          exact hc2 (Option.some.inj hhead)
      have hl2 : u.getLast? ≠ some '!' := by
        cases u with
        | nil => simp
        | cons c2 u2 =>
          rw [← List.getLast?_cons_cons (a := ch) (b := c2)]
          exact hl
      rw [List.cons_append, mdImg, if_neg hcond,
          ih (fun h => hu (List.mem_cons_of_mem ch h)) hl2 f v (Nat.le_of_succ_le_succ hlen)]
      simp [Nat.succ_sub_succ]

theorem mdBoldP_front (u v : List Char) (hu : '*' ∉ u) :
    mdBoldP (u ++ v) = u ++ mdBoldP v := by
  unfold mdBoldP
  rw [mdBold_front u hu ((u ++ v).length) v
      (by rw [List.length_append]; omega)]
  congr 1
  rw [List.length_append]
  congr 1
  omega

theorem mdItalicP_front (u v : List Char) (hu : '*' ∉ u) :
    mdItalicP (u ++ v) = u ++ mdItalicP v := by
  unfold mdItalicP
  rw [mdItalic_front u hu ((u ++ v).length) v
      (by rw [List.length_append]; omega)]
  congr 1
  rw [List.length_append]
  congr 1
  omega

theorem mdLinkP_front (u v : List Char) (hu : '[' ∉ u) :
    mdLinkP (u ++ v) = u ++ mdLinkP v := by
  unfold mdLinkP
  rw [mdLink_front u hu ((u ++ v).length) v
      (by rw [List.length_append]; omega)]
  congr 1
  rw [List.length_append]
  congr 1
  omega

theorem mdImgP_front (u v : List Char) (hu : '[' ∉ u) (hl : u.getLast? ≠ some '!') :
    mdImgP (u ++ v) = u ++ mdImgP v := by
  unfold mdImgP
  rw [mdImg_front u hu hl ((u ++ v).length) v
      (by rw [List.length_append]; omega)]
  congr 1
  rw [List.length_append]
  congr 1
  omega

theorem mdLinkP_token (s : List Char) :
    mdLinkP (tokLink ++ s) = tokAnchor ++ mdLink ("x](http://a)".data ++ s).length s := rfl

theorem nlPara_front (a b : List Char) (ha : '\n' ∉ a) :
    nlPara (a ++ b) = a ++ nlPara b := by
  induction a with
  | nil => simp
  | cons c a ih =>
    have hc : c ≠ '\n' := fun h => ha (h ▸ List.mem_cons_self c a)
    cases hab : a ++ b with
    | nil =>
      rw [List.cons_append, hab]
      rcases List.append_eq_nil.mp hab with ⟨ha2, hb2⟩
      subst ha2; subst hb2
      rfl
    | cons d rest =>
      rw [List.cons_append, hab, nlPara, if_neg (fun hand => hc hand.1), ← hab,
          ih (fun h => ha (List.mem_cons_of_mem c h))]
      simp

theorem nlPara_keeps (a0 : Char) (A2 : List Char) (hA : '\n' ∉ a0 :: A2) :
    ∀ n u v, u.length ≤ n →
    ∃ u2 v2, nlPara (u ++ (a0 :: A2) ++ v) = u2 ++ (a0 :: A2) ++ v2 := by
  have ha0 : a0 ≠ '\n' := fun h => hA (h ▸ List.mem_cons_self a0 A2)
  intro n
  induction n with
  | zero =>
    intro u v hlen
    have hu : u = [] := List.eq_nil_of_length_eq_zero (Nat.le_zero.mp hlen)
    subst hu
    refine ⟨[], nlPara v, ?_⟩
    simp only [List.nil_append]
    exact nlPara_front _ v hA
  | succ n ih =>
    intro u v hlen
    cases u with
    | nil =>
      refine ⟨[], nlPara v, ?_⟩
      simp only [List.nil_append]
      exact nlPara_front _ v hA
    | cons c u2 =>
      cases u2 with
      | nil =>
        refine ⟨[c], nlPara v, ?_⟩
        show nlPara (c :: a0 :: (A2 ++ v)) = c :: a0 :: (A2 ++ nlPara v)
        rw [nlPara, if_neg (fun hand => ha0 hand.2)]
        have := nlPara_front (a0 :: A2) v hA
        rw [List.cons_append] at this
        rw [this]
        simp
      | cons c2 u3 =>
        by_cases hcc : c = '\n' ∧ c2 = '\n'
        · obtain ⟨u4, v4, hind⟩ := ih u3 v (by
            simp only [List.length_cons] at hlen
            omega)
          refine ⟨"</p><p>".data ++ u4, v4, ?_⟩
          show nlPara (c :: c2 :: (u3 ++ (a0 :: A2) ++ v)) = _
          rw [nlPara, if_pos hcc, hind]
          simp [List.append_assoc]
        · obtain ⟨u4, v4, hind⟩ := ih (c2 :: u3) v (by
            simp only [List.length_cons] at hlen ⊢
            omega)
          refine ⟨c :: u4, v4, ?_⟩
          show nlPara (c :: c2 :: (u3 ++ (a0 :: A2) ++ v)) = _
          rw [nlPara, if_neg hcc]
          rw [show c2 :: (u3 ++ (a0 :: A2) ++ v) = (c2 :: u3) ++ (a0 :: A2) ++ v by simp,
              hind]
          simp

theorem nlBreak_front (a b : List Char) (ha : '\n' ∉ a) :
    nlBreak (a ++ b) = a ++ nlBreak b := by
  induction a with
  | nil => simp
  | cons c a ih =>
    have hc : c ≠ '\n' := fun h => ha (h ▸ List.mem_cons_self c a)
    rw [List.cons_append, nlBreak, if_neg hc,
        ih (fun h => ha (List.mem_cons_of_mem c h))]
    simp

theorem nlBreak_keeps (A : List Char) (hA : '\n' ∉ A) :
    ∀ u v, ∃ u2 v2, nlBreak (u ++ A ++ v) = u2 ++ A ++ v2 := by
  intro u
  induction u with
  | nil =>
    intro v
    refine ⟨[], nlBreak v, ?_⟩
    simp only [List.nil_append]
    exact nlBreak_front A v hA
  | cons c u ih =>
    intro v
    by_cases hc : c = '\n'
    · obtain ⟨u2, v2, hind⟩ := ih v
      refine ⟨"<br>".data ++ u2, v2, ?_⟩
      show nlBreak (c :: (u ++ A ++ v)) = _
      rw [nlBreak, if_pos hc, hind]
      simp [List.append_assoc]
    · obtain ⟨u2, v2, hind⟩ := ih v
      refine ⟨c :: u2, v2, ?_⟩
      show nlBreak (c :: (u ++ A ++ v)) = _
      rw [nlBreak, if_neg hc, hind]
      simp

theorem nlPara_keeps_all (A : List Char) (hA : '\n' ∉ A) (hne : A ≠ [])
    (u v : List Char) :
    ∃ u2 v2, nlPara (u ++ A ++ v) = u2 ++ A ++ v2 := by
  cases A with
  | nil => exact absurd rfl hne
  | cons a0 A2 => exact nlPara_keeps a0 A2 hA u.length u v le_rfl

/-- Soundness of the bold close scan: a successful scan decomposes the
input at the first closing pair of stars. -/
theorem starClose2_sound : ∀ l a r, starClose2 l = some (a, r) → l = a ++ '*' :: '*' :: r := by
  intro l
  induction l with
  | nil => intro a r h; simp [starClose2] at h
  | cons c l ih =>
    intro a r h
    cases l with
    | nil =>
      rw [show starClose2 [c] = none from rfl] at h
      cases h
    | cons c2 l2 =>
      rw [starClose2] at h
      by_cases h12 : c = '*' ∧ c2 = '*'
      · rw [if_pos h12] at h
        obtain ⟨ha, hr⟩ := Prod.mk.injEq .. ▸ Option.some.inj h
        subst hr
        simp [← ha, h12.1, h12.2]
      · rw [if_neg h12] at h
        by_cases hn : c = '\n'
        · rw [if_pos hn] at h
          simp at h
        · rw [if_neg hn] at h
          cases hrec : starClose2 (c2 :: l2) with
          | none => rw [hrec] at h; simp at h
          | some q =>
            rw [hrec] at h
            have h2 : some (c :: q.1, q.2) = some (a, r) := h
            obtain ⟨ha, hr⟩ := Prod.mk.injEq .. ▸ Option.some.inj h2
            have := ih q.1 q.2 (by rw [hrec])
            subst hr
            rw [← ha, List.cons_append, ← this]

/-- The bold close scan passes verbatim over a star-free, newline-free
front. -/
theorem starClose2_skip (u : List Char) (hu : '*' ∉ u) (hn : '\n' ∉ u) :
    ∀ v, starClose2 (u ++ v) = (starClose2 v).map (fun q => (u ++ q.1, q.2)) := by
  induction u with
  | nil =>
    intro v
    simp only [List.nil_append]
    cases h : starClose2 v <;> simp [h]
  | cons c u ih =>
    intro v
    have hc : c ≠ '*' := fun h => hu (h ▸ List.mem_cons_self c u)
    have hcn : c ≠ '\n' := fun h => hn (h ▸ List.mem_cons_self c u)
    have hu2 : '*' ∉ u := fun h => hu (List.mem_cons_of_mem c h)
    have hn2 : '\n' ∉ u := fun h => hn (List.mem_cons_of_mem c h)
    cases huv : u ++ v with
    | nil =>
      rcases List.append_eq_nil.mp huv with ⟨hu0, hv0⟩
      subst hu0; subst hv0
      simp [starClose2]
    | cons d rest =>
      show starClose2 (c :: (u ++ v)) = _
      rw [huv, starClose2, if_neg (fun hand => hc hand.1), if_neg hcn, ← huv,
          ih hu2 hn2 v]
      cases starClose2 v <;> simp

/-- A bold close scan over `p2 ++ tokLink ++ s` fails, closes inside
`p2`, or swallows the token verbatim and closes inside `s`. -/
theorem starClose2_split (p2 : List Char) : ∀ s : List Char,
    starClose2 (p2 ++ tokLink ++ s) = none
    ∨ (∃ a r, p2 = a ++ '*' :: '*' :: r ∧
        starClose2 (p2 ++ tokLink ++ s) = some (a, r ++ tokLink ++ s))
    ∨ (∃ s1 s2, s = s1 ++ '*' :: '*' :: s2 ∧
        starClose2 (p2 ++ tokLink ++ s) = some (p2 ++ tokLink ++ s1, s2)) := by
  induction p2 with
  | nil =>
    intro s
    simp only [List.nil_append]
    rw [starClose2_skip tokLink (by decide) (by decide) s]
    cases hs : starClose2 s with
    | none => exact Or.inl rfl
    | some q =>
      exact Or.inr (Or.inr ⟨q.1, q.2,
        starClose2_sound s q.1 q.2 hs, rfl⟩)
  | cons c p2 ih =>
    intro s
    cases p2 with
    | nil =>
      simp only [List.cons_append, List.nil_append]
      by_cases hn : c = '\n'
      · rw [show c :: (tokLink ++ s) = c :: '[' :: ("x](http://a)".data ++ s) from rfl,
            starClose2, if_neg (by rintro ⟨_, h⟩; exact absurd h (by decide)), if_pos hn]
        exact Or.inl rfl
      · rw [show c :: (tokLink ++ s) = c :: '[' :: ("x](http://a)".data ++ s) from rfl,
            starClose2, if_neg (by rintro ⟨_, h⟩; exact absurd h (by decide)), if_neg hn,
            show ('[' :: ("x](http://a)".data ++ s)) = tokLink ++ s from rfl,
            starClose2_skip tokLink (by decide) (by decide) s]
        cases hs : starClose2 s with
        | none => exact Or.inl rfl
        | some q =>
          exact Or.inr (Or.inr ⟨q.1, q.2,
            starClose2_sound s q.1 q.2 hs, rfl⟩)
    | cons c2 p3 =>
      simp only [List.cons_append]
      rw [starClose2]
      by_cases h12 : c = '*' ∧ c2 = '*'
      · rw [if_pos h12]
        exact Or.inr (Or.inl ⟨[], p3, by rw [h12.1, h12.2]; rfl, rfl⟩)
      · rw [if_neg h12]
        by_cases hn : c = '\n'
        · rw [if_pos hn]
          exact Or.inl rfl
        · rw [if_neg hn]
          have ihs := ih s
          simp only [List.cons_append] at ihs
          rcases ihs with hnone | ⟨a, r, hpe, hsome⟩ | ⟨s1, s2, hse, hsome⟩
          · rw [hnone]
            exact Or.inl rfl
          · rw [hsome]
            exact Or.inr (Or.inl ⟨c :: a, r, by rw [hpe]; rfl, rfl⟩)
          · rw [hsome]
            exact Or.inr (Or.inr ⟨s1, s2, hse, rfl⟩)

/-- Soundness of the italic close scan. -/
theorem starClose1_sound : ∀ l a r, starClose1 l = some (a, r) → l = a ++ '*' :: r := by
  intro l
  induction l with
  | nil => intro a r h; simp [starClose1] at h
  | cons c l ih =>
    intro a r h
    rw [starClose1] at h
    by_cases h1 : c = '*'
    · rw [if_pos h1] at h
      obtain ⟨ha, hr⟩ := Prod.mk.injEq .. ▸ Option.some.inj h
      subst hr
      simp [← ha, h1]
    · rw [if_neg h1] at h
      by_cases hn : c = '\n'
      · rw [if_pos hn] at h
        simp at h
      · rw [if_neg hn] at h
        cases hrec : starClose1 l with
        | none => rw [hrec] at h; simp at h
        | some q =>
          rw [hrec] at h
          have h2 : some (c :: q.1, q.2) = some (a, r) := h
          obtain ⟨ha, hr⟩ := Prod.mk.injEq .. ▸ Option.some.inj h2
          have := ih q.1 q.2 (by rw [hrec])
          subst hr
          rw [← ha, List.cons_append, ← this]

/-- The italic close scan passes verbatim over a star-free, newline-free
front. -/
theorem starClose1_skip (u : List Char) (hu : '*' ∉ u) (hn : '\n' ∉ u) :
    ∀ v, starClose1 (u ++ v) = (starClose1 v).map (fun q => (u ++ q.1, q.2)) := by
  induction u with
  | nil =>
    intro v
    simp only [List.nil_append]
    cases h : starClose1 v <;> simp [h]
  | cons c u ih =>
    intro v
    have hc : c ≠ '*' := fun h => hu (h ▸ List.mem_cons_self c u)
    have hcn : c ≠ '\n' := fun h => hn (h ▸ List.mem_cons_self c u)
    have hu2 : '*' ∉ u := fun h => hu (List.mem_cons_of_mem c h)
    have hn2 : '\n' ∉ u := fun h => hn (List.mem_cons_of_mem c h)
    rw [List.cons_append, starClose1, if_neg hc, if_neg hcn, ih hu2 hn2 v]
    cases starClose1 v <;> simp

/-- An italic close scan over `p2 ++ tokLink ++ s` fails, closes inside
`p2`, or swallows the token verbatim and closes inside `s`. -/
theorem starClose1_split (p2 : List Char) : ∀ s : List Char,
    starClose1 (p2 ++ tokLink ++ s) = none
    ∨ (∃ a r, p2 = a ++ '*' :: r ∧
        starClose1 (p2 ++ tokLink ++ s) = some (a, r ++ tokLink ++ s))
    ∨ (∃ s1 s2, s = s1 ++ '*' :: s2 ∧
        starClose1 (p2 ++ tokLink ++ s) = some (p2 ++ tokLink ++ s1, s2)) := by
  induction p2 with
  | nil =>
    intro s
    simp only [List.nil_append]
    rw [starClose1_skip tokLink (by decide) (by decide) s]
    cases hs : starClose1 s with
    | none => exact Or.inl rfl
    | some q =>
      exact Or.inr (Or.inr ⟨q.1, q.2, starClose1_sound s q.1 q.2 hs, rfl⟩)
  | cons c p2 ih =>
    intro s
    simp only [List.cons_append]
    rw [starClose1]
    by_cases h1 : c = '*'
    · rw [if_pos h1]
      exact Or.inr (Or.inl ⟨[], p2, by rw [h1]; rfl, rfl⟩)
    · rw [if_neg h1]
      by_cases hn : c = '\n'
      · rw [if_pos hn]
        exact Or.inl rfl
      · rw [if_neg hn]
        have ihs := ih s
        rcases ihs with hnone | ⟨a, r, hpe, hsome⟩ | ⟨s1, s2, hse, hsome⟩
        · rw [hnone]
          exact Or.inl rfl
        · rw [hsome]
          exact Or.inr (Or.inl ⟨c :: a, r, by rw [hpe]; rfl, rfl⟩)
        · rw [hsome]
          exact Or.inr (Or.inr ⟨s1, s2, hse, rfl⟩)

/-- The bold pass keeps the link token contiguous and its prefix free of
`[`: a span either closes before the token, fails, or swallows the token
verbatim into the `<strong>` content. -/
theorem mdBold_token : ∀ n p s f, p.length ≤ n →
    (p ++ tokLink ++ s).length ≤ f → '[' ∉ p →
    ∃ p2 s2, mdBold f (p ++ tokLink ++ s) = p2 ++ tokLink ++ s2 ∧ '[' ∉ p2 := by
  have base : ∀ s f, ((tokLink ++ s : List Char)).length ≤ f →
      ∃ p2 s2, mdBold f (([] : List Char) ++ tokLink ++ s) = p2 ++ tokLink ++ s2 ∧
        '[' ∉ p2 := by
    intro s f hf
    refine ⟨[], mdBold (f - tokLink.length) s, ?_, by simp⟩
    simp only [List.nil_append]
    rw [mdBold_front tokLink (by decide) f s (by
      simp only [List.length_append] at hf
      omega)]
  intro n
  induction n with
  | zero =>
    intro p s f hn hf h1
    have hp : p = [] := List.eq_nil_of_length_eq_zero (Nat.le_zero.mp hn)
    subst hp
    exact base s f (by simpa using hf)
  | succ n ih =>
    intro p s f hn hf h1
    cases p with
    | nil => exact base s f (by simpa using hf)
    | cons c prest =>
      have hcb : c ≠ '[' := fun h => h1 (h ▸ List.mem_cons_self c prest)
      have h1r : '[' ∉ prest := fun h => h1 (List.mem_cons_of_mem c h)
      cases f with
      | zero =>
        exfalso
        simp only [List.length_append, List.length_cons] at hf
        omega
      | succ f1 =>
        have hf1 : (prest ++ tokLink ++ s).length ≤ f1 := by
          simp only [List.length_append, List.length_cons] at hf ⊢
          omega
        show ∃ p2 s2, mdBold (f1 + 1) (c :: (prest ++ tokLink ++ s))
          = p2 ++ tokLink ++ s2 ∧ '[' ∉ p2
        by_cases htr : c = '*' ∧ (prest ++ tokLink ++ s).head? = some '*'
        · obtain ⟨hc, hh⟩ := htr
          subst hc
          cases prest with
          | nil =>
            exfalso
            have hh2 : some '[' = some '*' := hh
            exact absurd (Option.some.inj hh2) (by decide)
          | cons c2 p2x =>
            have hh2 : some c2 = some '*' := hh
            have hc2 : c2 = '*' := Option.some.inj hh2
            subst hc2
            rw [mdBold, if_pos ⟨rfl, hh⟩,
                show ((('*' :: p2x) ++ tokLink ++ s)).tail = p2x ++ tokLink ++ s from rfl]
            have h1x : '[' ∉ p2x := fun h => h1r (List.mem_cons_of_mem _ h)
            rcases starClose2_split p2x s with hnone | ⟨a, r, hpe, hsome⟩
              | ⟨s1, s2x, hse, hsome⟩
            · rw [hnone]
              obtain ⟨q, t, hq, hqb⟩ := ih ('*' :: p2x) s f1 (by
                  simp only [List.length_cons] at hn ⊢
                  omega) (by
                  simp only [List.length_append, List.length_cons] at hf1 ⊢
                  omega) (fun h => h1r h)
              refine ⟨'*' :: q, t, ?_, ?_⟩
              · show '*' :: mdBold f1 (('*' :: p2x) ++ tokLink ++ s) = _
                rw [hq]
                simp
              · intro hmem
                rcases List.mem_cons.mp hmem with h | h
                · exact absurd h (by decide)
                · exact hqb h
            · have hlen := congrArg List.length hpe
              simp only [List.length_append, List.length_cons] at hlen
              rw [hsome]
              obtain ⟨q, t, hq, hqb⟩ := ih r s f1 (by
                  simp only [List.length_cons] at hn
                  omega) (by
                  simp only [List.length_append, List.length_cons] at hf1 ⊢
                  omega) (by
                  intro h
                  exact h1x (hpe ▸ List.mem_append.mpr
                    (Or.inr (List.mem_cons_of_mem _ (List.mem_cons_of_mem _ h)))))
              refine ⟨"<strong>".data ++ a ++ "</strong>".data ++ q, t, ?_, ?_⟩
              · show "<strong>".data ++ a ++ "</strong>".data
                    ++ mdBold f1 (r ++ tokLink ++ s) = _
                rw [hq]
                simp [List.append_assoc]
              · intro hmem
                rcases List.mem_append.mp hmem with h | h
                · rcases List.mem_append.mp h with h | h
                  · rcases List.mem_append.mp h with h | h
                    · exact absurd h (by decide)
                    · exact h1x (hpe ▸ List.mem_append.mpr (Or.inl h))
                  · exact absurd h (by decide)
                · exact hqb h
            · rw [hsome]
              refine ⟨"<strong>".data ++ p2x,
                s1 ++ "</strong>".data ++ mdBold f1 s2x, ?_, ?_⟩
              · show "<strong>".data ++ (p2x ++ tokLink ++ s1) ++ "</strong>".data
                    ++ mdBold f1 s2x = _
                simp [List.append_assoc]
              · intro hmem
                rcases List.mem_append.mp hmem with h | h
                · exact absurd h (by decide)
                · exact h1x h
        · rw [mdBold, if_neg htr]
          obtain ⟨q, t, hq, hqb⟩ := ih prest s f1 (by
              simp only [List.length_cons] at hn
              omega) hf1 h1r
          refine ⟨c :: q, t, ?_, ?_⟩
          · rw [hq]
            simp
          · intro hmem
            rcases List.mem_cons.mp hmem with h | h
            · exact absurd (h ▸ rfl) hcb
            · exact hqb h

/-- The italic pass keeps the link token contiguous and its prefix free
of `[`. -/
theorem mdItalic_token : ∀ n p s f, p.length ≤ n →
    (p ++ tokLink ++ s).length ≤ f → '[' ∉ p →
    ∃ p2 s2, mdItalic f (p ++ tokLink ++ s) = p2 ++ tokLink ++ s2 ∧ '[' ∉ p2 := by
  have base : ∀ s f, ((tokLink ++ s : List Char)).length ≤ f →
      ∃ p2 s2, mdItalic f (([] : List Char) ++ tokLink ++ s) = p2 ++ tokLink ++ s2 ∧
        '[' ∉ p2 := by
    intro s f hf
    refine ⟨[], mdItalic (f - tokLink.length) s, ?_, by simp⟩
    simp only [List.nil_append]
    rw [mdItalic_front tokLink (by decide) f s (by
      simp only [List.length_append] at hf
      omega)]
  intro n
  induction n with
  | zero =>
    intro p s f hn hf h1
    have hp : p = [] := List.eq_nil_of_length_eq_zero (Nat.le_zero.mp hn)
    subst hp
    exact base s f (by simpa using hf)
  | succ n ih =>
    intro p s f hn hf h1
    cases p with
    | nil => exact base s f (by simpa using hf)
    | cons c prest =>
      have hcb : c ≠ '[' := fun h => h1 (h ▸ List.mem_cons_self c prest)
      have h1r : '[' ∉ prest := fun h => h1 (List.mem_cons_of_mem c h)
      cases f with
      | zero =>
        exfalso
        simp only [List.length_append, List.length_cons] at hf
        omega
      | succ f1 =>
        have hf1 : (prest ++ tokLink ++ s).length ≤ f1 := by
          simp only [List.length_append, List.length_cons] at hf ⊢
          omega
        have hn1 : prest.length ≤ n := by
          simp only [List.length_cons] at hn
          omega
        show ∃ p2 s2, mdItalic (f1 + 1) (c :: (prest ++ tokLink ++ s))
          = p2 ++ tokLink ++ s2 ∧ '[' ∉ p2
        by_cases htr : c = '*'
        · subst htr
          rw [mdItalic, if_pos rfl]
          rcases starClose1_split prest s with hnone | ⟨a, r, hpe, hsome⟩
            | ⟨s1, s2x, hse, hsome⟩
          · rw [hnone]
            obtain ⟨q, t, hq, hqb⟩ := ih prest s f1 hn1 hf1 h1r
            refine ⟨'*' :: q, t, ?_, ?_⟩
            · rw [hq]
              simp
            · intro hmem
              rcases List.mem_cons.mp hmem with h | h
              · exact absurd h (by decide)
              · exact hqb h
          · have hlen := congrArg List.length hpe
            simp only [List.length_append, List.length_cons] at hlen
            rw [hsome]
            obtain ⟨q, t, hq, hqb⟩ := ih r s f1 (by omega) (by
                simp only [List.length_append, List.length_cons] at hf1 ⊢
                omega) (by
                intro h
                exact h1r (hpe ▸ List.mem_append.mpr
                  (Or.inr (List.mem_cons_of_mem _ h))))
            refine ⟨"<em>".data ++ a ++ "</em>".data ++ q, t, ?_, ?_⟩
            · show "<em>".data ++ a ++ "</em>".data
                  ++ mdItalic f1 (r ++ tokLink ++ s) = _
              rw [hq]
              simp [List.append_assoc]
            · intro hmem
              rcases List.mem_append.mp hmem with h | h
              · rcases List.mem_append.mp h with h | h
                · rcases List.mem_append.mp h with h | h
                  · exact absurd h (by decide)
                  · exact h1r (hpe ▸ List.mem_append.mpr (Or.inl h))
                · exact absurd h (by decide)
              · exact hqb h
          · rw [hsome]
            refine ⟨"<em>".data ++ prest,
              s1 ++ "</em>".data ++ mdItalic f1 s2x, ?_, ?_⟩
            · show "<em>".data ++ (prest ++ tokLink ++ s1) ++ "</em>".data
                  ++ mdItalic f1 s2x = _
              simp [List.append_assoc]
            · intro hmem
              rcases List.mem_append.mp hmem with h | h
              · exact absurd h (by decide)
              · exact h1r h
        · rw [mdItalic, if_neg htr]
          obtain ⟨q, t, hq, hqb⟩ := ih prest s f1 hn1 hf1 h1r
          refine ⟨c :: q, t, ?_, ?_⟩
          · rw [hq]
            simp
          · intro hmem
            rcases List.mem_cons.mp hmem with h | h
            · exact absurd (h ▸ rfl) hcb
            · exact hqb h

theorem mdBoldP_token (p s : List Char) (h1 : '[' ∉ p) :
    ∃ p2 s2, mdBoldP (p ++ tokLink ++ s) = p2 ++ tokLink ++ s2 ∧ '[' ∉ p2 := by
  unfold mdBoldP
  exact mdBold_token p.length p s (p ++ tokLink ++ s).length le_rfl le_rfl h1

theorem mdItalicP_token (p s : List Char) (h1 : '[' ∉ p) :
    ∃ p2 s2, mdItalicP (p ++ tokLink ++ s) = p2 ++ tokLink ++ s2 ∧ '[' ∉ p2 := by
  unfold mdItalicP
  exact mdItalic_token p.length p s (p ++ tokLink ++ s).length le_rfl le_rfl h1

/-- Claim C6 amended: for every markdown input of the form
`p ++ "[x](http://a)" ++ s` whose prefix `p` contains no `[` (and, as the
claim already requires, does not end in `!`), the output of
`Reader.markdownToHtml` contains the anchor
`<a href="http://a" target="_blank" rel="noopener noreferrer">x</a>`
wrapping the text `x`.  The suffix `s` and any `*`, `#` or newline
characters in the prefix are unrestricted: header, bold and italic
replacements only insert tags around verbatim content and cannot break
the token. -/
theorem markdownToHtml_link_anchor (p s : List Char)
    (h1 : '[' ∉ p) (h3 : p.getLast? ≠ some '!') :
    hasSeq tokAnchor (Reader.markdownToHtml ⟨p ++ tokLink ++ s⟩).data = true := by
  have hne : (⟨p ++ tokLink ++ s⟩ : String) ≠ "" := by
    intro h
    have hd := congrArg String.data h
    simp only at hd
    rcases List.append_eq_nil.mp hd with ⟨hd2, _⟩
    rcases List.append_eq_nil.mp hd2 with ⟨_, htok⟩
    exact absurd htok (by decide)
  unfold Reader.markdownToHtml
  rw [if_neg hne]
  show hasSeq tokAnchor (mdPasses (p ++ tokLink ++ s)) = true
  unfold mdPasses
  obtain ⟨p3, s3, hH3, hp31⟩ :=
    headerPass_token "### ".data "<h3>".data "</h3>".data
      (by decide) (by decide) (by decide) p.length p s le_rfl h1
  rw [hH3]
  obtain ⟨p4, s4, hH2, hp41⟩ :=
    headerPass_token "## ".data "<h2>".data "</h2>".data
      (by decide) (by decide) (by decide) p3.length p3 s3 le_rfl hp31
  rw [hH2]
  obtain ⟨pa, sa, hH1, hpa1⟩ :=
    headerPass_token "# ".data "<h1>".data "</h1>".data
      (by decide) (by decide) (by decide) p4.length p4 s4 le_rfl hp41
  rw [hH1]
  obtain ⟨pb, sb, hB, hpb1⟩ := mdBoldP_token pa sa hpa1
  rw [hB]
  obtain ⟨pc, sc, hI, hpc1⟩ := mdItalicP_token pb sb hpb1
  rw [hI]
  rw [List.append_assoc pc tokLink sc,
      mdLinkP_front pc (tokLink ++ sc) hpc1,
      mdLinkP_token sc,
      ← List.append_assoc pc tokAnchor _]
  have hbr : '[' ∉ pc ++ tokAnchor := by
    intro hmem
    rcases List.mem_append.mp hmem with h | h
    · exact hpc1 h
    · exact absurd h (by decide)
  have hlastB : (pc ++ tokAnchor).getLast? ≠ some '!' := by
    rw [List.getLast?_append_of_ne_nil pc (by decide)]
    decide
  rw [mdImgP_front (pc ++ tokAnchor) _ hbr hlastB]
  obtain ⟨u4, v4, h4⟩ := nlPara_keeps_all tokAnchor (by decide) (by decide)
    pc (mdImgP (mdLink ("x](http://a)".data ++ sc).length sc))
  rw [h4]
  obtain ⟨u5, v5, h5⟩ := nlBreak_keeps tokAnchor (by decide) u4 v4
  rw [h5]
  have := hasSeq_of_parts tokAnchor ("<p>".data ++ u5) (v5 ++ "</p>".data)
  simpa [List.append_assoc] using this

/-- Witness for C6 at a concrete prefix containing italic markup. -/
theorem markdownToHtml_link_anchor_witness :
    hasSeq tokAnchor
      (Reader.markdownToHtml ⟨"*a* ".data ++ tokLink ++ " and *more*".data⟩).data = true :=
  markdownToHtml_link_anchor "*a* ".data " and *more*".data
    (by decide) (by decide)
